import Mathlib

/-!
Verification of the fs-entangle replication engine against its specification.

The definitions below are shallow embeddings of the Go source:
  internal/common (PathIgnorer, BuildFileManifest), the server engine
  (operation queue, broadcast, file-request and file-operation handlers,
  read loop, applyChangeLocally) and the client engine (handleManifest,
  listenToServer, watchFilesystem, handleFsEvent, the apply part of
  handleFileOperation).

Strings are modelled as lists of characters where character-level
processing matters (glob matching, splitting on separators); byte
contents are lists of naturals; SHA-256 is kept abstract as a hashing
parameter; filesystem trees are explicit inductive trees (for the
manifest walk) or finite partial maps from segment lists to nodes (for
operation application).
-/

namespace Common

/-- Splits a character list on a separator character, in the manner of
Go strings.Split with a one-character separator: the result is always
non-empty, and empty pieces are kept. -/
def splitSep (sep : Char) : List Char → List (List Char)
  | [] => [[]]
  | c :: rest =>
    if c = sep then [] :: splitSep sep rest
    else
      match splitSep sep rest with
      | [] => [[c]]
      | p :: ps => (c :: p) :: ps

/-- Matches a single glob segment (no separator inside) against a single
path segment. A star matches any character sequence within the segment,
a question mark matches one character, other characters match literally.
Models the within-segment matching of the doublestar library used by
the source (src/unnamed/part_000), restricted to the features the
specification names. -/
def segMatch : List Char → List Char → Bool
  | [], cs => cs.isEmpty
  | p :: ps, cs =>
    if p = '*' then (cs.tails).any fun t => segMatch ps t
    else
      match cs with
      | [] => false
      | c :: cs2 => (p = '?' || p = c) && segMatch ps cs2

/-- Matches a list of glob segments against a list of path segments.
A segment consisting exactly of two stars matches zero or more whole
path segments (so it crosses separators); any other segment must match
exactly one path segment via segMatch. Models doublestar.Match after
both pattern and path are split on the separator. -/
def matchSegs : List (List Char) → List (List Char) → Bool
  | [], ns => ns.isEmpty
  | p :: ps, ns =>
    if p = ['*', '*'] then (ns.tails).any fun t => matchSegs ps t
    else
      match ns with
      | [] => false
      | n :: ns2 => segMatch p n && matchSegs ps ns2

/-- Models doublestar.Match from the external bmatcuk/doublestar
library as the specification describes it: the pattern and the path are
split on the slash, a lone doublestar segment crosses slashes, a single
star does not. -/
def doublestarMatch (pattern path : List Char) : Bool :=
  matchSegs (splitSep '/' pattern) (splitSep '/' path)

/-- True when the pattern ends in two stars, as strings.HasSuffix with
the two-star suffix does in the source. -/
def endsWithStarStar (p : List Char) : Bool :=
  match p.reverse with
  | '*' :: '*' :: _ => true
  | _ => false

/-- Removes one trailing slash if present, as strings.TrimSuffix with a
slash does in the source. -/
def trimSlash (p : List Char) : List Char :=
  match p.reverse with
  | '/' :: r => r.reverse
  | _ => p

/-- Normalization applied to each comma-separated pattern by
NewPathIgnorer (src/unnamed/part_000): unless the pattern already ends
in two stars, the trailing slash (if any) is trimmed and a
slash-star-star suffix is appended, so a bare directory prefix also
covers its subtree. -/
def normalizePattern (p : List Char) : List Char :=
  if endsWithStarStar p then p else trimSlash p ++ ['/', '*', '*']

/-- The path ignorer: a list of (already normalized) glob patterns. -/
structure PathIgnorer where
  patterns : List (List Char)
deriving Repr

/-- NewPathIgnorer from src/unnamed/part_000: the empty configuration
string yields an empty pattern list; otherwise the string is split on
commas and every piece is normalized. -/
def NewPathIgnorer (ignoreStr : List Char) : PathIgnorer :=
  if ignoreStr = [] then { patterns := [] }
  else { patterns := (splitSep ',' ignoreStr).map normalizePattern }

/-- PathIgnorer.IsIgnored from src/unnamed/part_000: true when some
stored pattern matches the whole relative path under doublestar
semantics. -/
def PathIgnorer.IsIgnored (pi : PathIgnorer) (path : List Char) : Bool :=
  pi.patterns.any fun pattern => doublestarMatch pattern path

end Common

section Scratch

example : Common.doublestarMatch ".git/**".toList ".git/config".toList = true := by decide
example : Common.doublestarMatch ".git/**".toList ".git".toList = true := by decide
example : Common.doublestarMatch "a/*".toList "a/b/c".toList = false := by decide
example : Common.doublestarMatch "a/**".toList "a/b/c".toList = true := by decide
example : (Common.NewPathIgnorer ".git,*.log".toList).patterns =
    [".git/**".toList, "*.log/**".toList] := by decide
example : (Common.NewPathIgnorer "".toList).patterns = [] := by decide
example : (Common.NewPathIgnorer "*.log".toList).IsIgnored "foo.log".toList = true := by decide

end Scratch

namespace Common

theorem splitSep_ne_nil (sep : Char) (cs : List Char) : splitSep sep cs ≠ [] := by
  cases cs with
  | nil => simp [splitSep]
  | cons c rest =>
    simp only [splitSep]
    split
    · simp
    · split <;> simp

theorem splitSep_of_not_mem (sep : Char) (cs : List Char) (h : sep ∉ cs) :
    splitSep sep cs = [cs] := by
  induction cs with
  | nil => rfl
  | cons c rest ih =>
    have hc : ¬ c = sep := fun e => h (e ▸ List.mem_cons_self c rest)
    have hr : sep ∉ rest := fun m => h (List.mem_cons_of_mem c m)
    simp only [splitSep, if_neg hc, ih hr]

theorem splitSep_append (sep : Char) (a b : List Char) (h : sep ∉ a) :
    splitSep sep (a ++ sep :: b) = a :: splitSep sep b := by
  induction a with
  | nil => simp [splitSep]
  | cons c rest ih =>
    have hc : ¬ c = sep := fun e => h (e ▸ List.mem_cons_self c rest)
    have hr : sep ∉ rest := fun m => h (List.mem_cons_of_mem c m)
    simp only [List.cons_append, splitSep, if_neg hc, List.append_eq]
    rw [ih hr]

theorem any_tails_of_nil {α : Type} (f : List α → Bool) (hf : f [] = true) :
    ∀ l : List α, (l.tails.any f) = true := by
  intro l
  induction l with
  | nil => simpa [List.tails] using hf
  | cons a l ih => simp [List.tails_cons, ih]

/-- A lone doublestar segment matches any list of path segments: the
doublestar crosses path separators. -/
theorem matchSegs_doublestar (ns : List (List Char)) :
    matchSegs [['*', '*']] ns = true := by
  show (ns.tails.any fun t => matchSegs [] t) = true
  exact any_tails_of_nil _ rfl ns

theorem segMatch_star (cs : List Char) : segMatch ['*'] cs = true := by
  show (cs.tails.any fun t => segMatch [] t) = true
  exact any_tails_of_nil _ rfl cs

/-- A lone single-star segment matches exactly one path segment: a
single star never crosses a path separator. -/
theorem matchSegs_star_iff (ns : List (List Char)) :
    matchSegs [['*']] ns = true ↔ ns.length = 1 := by
  cases ns with
  | nil => decide
  | cons n ns2 =>
    show (segMatch ['*'] n && matchSegs [] ns2) = true ↔ ns2.length + 1 = 1
    rw [segMatch_star n, Bool.true_and]
    cases ns2 with
    | nil => simp [matchSegs]
    | cons m ms => simp [matchSegs]

theorem segMatch_literal_refl (s : List Char)
    (h : ∀ c ∈ s, ¬ c = '*' ∧ ¬ c = '?') : segMatch s s = true := by
  induction s with
  | nil => rfl
  | cons p ps ih =>
    have hp := h p (List.mem_cons_self p ps)
    have hr : ∀ c ∈ ps, ¬ c = '*' ∧ ¬ c = '?' := fun c m => h c (List.mem_cons_of_mem p m)
    simp only [segMatch, if_neg hp.1]
    simp [ih hr]

theorem matchSegs_literal_dstar (ds rest : List (List Char))
    (h : ∀ s ∈ ds, ∀ c ∈ s, ¬ c = '*' ∧ ¬ c = '?') :
    matchSegs (ds ++ [['*', '*']]) (ds ++ rest) = true := by
  induction ds with
  | nil => simpa using matchSegs_doublestar rest
  | cons d ds2 ih =>
    have hd := h d (List.mem_cons_self d ds2)
    have hr : ∀ s ∈ ds2, ∀ c ∈ s, ¬ c = '*' ∧ ¬ c = '?' :=
      fun s m => h s (List.mem_cons_of_mem d m)
    have hne : ¬ d = ['*', '*'] := by
      intro e
      exact (hd '*' (by rw [e]; exact List.mem_cons_self _ _)).1 rfl
    simp only [List.cons_append, matchSegs, if_neg hne]
    simp [segMatch_literal_refl d hd, ih hr]

theorem endsWithStarStar_eq_false (p : List Char) (h : ∀ c ∈ p, ¬ c = '*') :
    endsWithStarStar p = false := by
  unfold endsWithStarStar
  split
  · next c r heq =>
    exfalso
    have : '*' ∈ p.reverse := by rw [heq]; exact List.mem_cons_self _ _
    exact h '*' (List.mem_reverse.mp this) rfl
  · rfl

theorem trimSlash_eq_self (p : List Char) (h : ∀ c ∈ p, ¬ c = '/') :
    trimSlash p = p := by
  unfold trimSlash
  split
  · next r heq =>
    exfalso
    have : '/' ∈ p.reverse := by rw [heq]; exact List.mem_cons_self _ _
    exact h '/' (List.mem_reverse.mp this) rfl
  · rfl

end Common

/-- C6: each comma-separated pattern is normalized by the ignorer so
that, unless it already ends in a doublestar, its trailing slash is
trimmed and a slash-doublestar suffix is appended; IsIgnored holds iff
some normalized pattern matches the whole relative path under
doublestar semantics, where a lone doublestar segment crosses slashes,
a single star matches exactly one segment, and a bare literal
directory-prefix pattern consequently matches everything under that
directory. -/
theorem c6_ignorer_normalization_doublestar :
    (∀ (pi : Common.PathIgnorer) (path : List Char),
      pi.IsIgnored path = true ↔
        ∃ pat ∈ pi.patterns, Common.doublestarMatch pat path = true) ∧
    (∀ q : List Char, Common.endsWithStarStar q = true → Common.normalizePattern q = q) ∧
    (∀ q : List Char, Common.endsWithStarStar q = false →
      Common.normalizePattern q = Common.trimSlash q ++ ['/', '*', '*']) ∧
    (∀ s : List Char, ¬ s = [] →
      (Common.NewPathIgnorer s).patterns =
        (Common.splitSep ',' s).map Common.normalizePattern) ∧
    (∀ ns : List (List Char), Common.matchSegs [['*', '*']] ns = true) ∧
    (∀ ns : List (List Char), Common.matchSegs [['*']] ns = true ↔ ns.length = 1) ∧
    (∀ p rest : List Char, ¬ p = [] →
      (∀ c ∈ p, ¬ c = '*' ∧ ¬ c = '?' ∧ ¬ c = ',' ∧ ¬ c = '/') →
      (Common.NewPathIgnorer p).IsIgnored (p ++ '/' :: rest) = true) := by
  refine ⟨?_, ?_, ?_, ?_, ?_, ?_, ?_⟩
  · intro pi path
    simp [Common.PathIgnorer.IsIgnored, List.any_eq_true]
  · intro q h
    simp [Common.normalizePattern, h]
  · intro q h
    simp [Common.normalizePattern, h]
  · intro s h
    simp [Common.NewPathIgnorer, h]
  · exact Common.matchSegs_doublestar
  · exact Common.matchSegs_star_iff
  · intro p rest hne hlit
    have hcomma : ',' ∉ p := fun m => (hlit _ m).2.2.1 rfl
    have hslash : ∀ c ∈ p, ¬ c = '/' := fun c m => (hlit c m).2.2.2
    have hstar : ∀ c ∈ p, ¬ c = '*' := fun c m => (hlit c m).1
    have hslashm : '/' ∉ p := fun m => hslash _ m rfl
    have hpat : (Common.NewPathIgnorer p).patterns = [Common.normalizePattern p] := by
      simp [Common.NewPathIgnorer, hne, Common.splitSep_of_not_mem ',' p hcomma]
    have hnorm : Common.normalizePattern p = p ++ ['/', '*', '*'] := by
      simp [Common.normalizePattern, Common.endsWithStarStar_eq_false p hstar,
        Common.trimSlash_eq_self p hslash]
    have hsplitpat : Common.splitSep '/' (p ++ ['/', '*', '*']) = p :: [['*', '*']] := by
      have : (['/', '*', '*'] : List Char) = '/' :: ['*', '*'] := rfl
      rw [this, Common.splitSep_append '/' p ['*', '*'] hslashm]
      rfl
    have hsplitpath : Common.splitSep '/' (p ++ '/' :: rest) =
        p :: Common.splitSep '/' rest :=
      Common.splitSep_append '/' p rest hslashm
    simp only [Common.PathIgnorer.IsIgnored, hpat, List.any_cons, List.any_nil,
      Bool.or_false, hnorm, Common.doublestarMatch, hsplitpat, hsplitpath]
    have : (p :: [['*', '*']]) = [p] ++ [['*', '*']] := rfl
    rw [this]
    have hform : (p :: Common.splitSep '/' rest) = [p] ++ Common.splitSep '/' rest := rfl
    rw [hform]
    apply Common.matchSegs_literal_dstar
    intro s hs c hc
    have : s = p := by simpa using hs
    subst this
    exact ⟨(hlit c hc).1, (hlit c hc).2.1⟩

/-- Witness for C6 at concrete inputs: the bare directory pattern
dot-git ignores a file nested below the directory, and a pattern
already ending in a doublestar is left unchanged. -/
theorem c6_ignorer_normalization_doublestar_witness :
    ((¬ ".git".toList = []) ∧
     (∀ c ∈ ".git".toList, ¬ c = '*' ∧ ¬ c = '?' ∧ ¬ c = ',' ∧ ¬ c = '/') ∧
     (Common.NewPathIgnorer ".git".toList).IsIgnored
       (".git".toList ++ '/' :: "hooks/pre-commit".toList) = true) ∧
    (Common.endsWithStarStar "a/**".toList = true ∧
     Common.normalizePattern "a/**".toList = "a/**".toList) :=
  ⟨⟨by decide, by decide,
    c6_ignorer_normalization_doublestar.2.2.2.2.2.2 ".git".toList
      "hooks/pre-commit".toList (by decide) (by decide)⟩,
   ⟨by decide,
    c6_ignorer_normalization_doublestar.2.1 "a/**".toList (by decide)⟩⟩

namespace Common

mutual
/-- A filesystem tree entry: a regular file with its byte contents, or
a directory with its children. -/
inductive FsTree where
  | file : List Nat → FsTree
  | dir : FsForest → FsTree
/-- An ordered list of named children of a directory. -/
inductive FsForest where
  | nil : FsForest
  | cons : List Char → FsTree → FsForest → FsForest
end

/-- The relative path of a child entry, as filepath.Rel produces it
during the walk: the bare name at the top level, otherwise the parent
relative path extended with a slash and the name. -/
def childRel (rel name : List Char) : List Char :=
  if rel = [] then name else rel ++ '/' :: name

mutual
/-- The walk callback of BuildFileManifest (src/unnamed/part_000) on a
single entry: an ignored directory is pruned, an ignored file is
skipped, a regular file whose hashing fails is omitted, and any other
regular file contributes its relative path mapped to the hash of its
contents. -/
def walkTree (ign : List Char → Bool) (fail : List Char → Bool)
    (hash : List Nat → List Char) (rel : List Char) :
    FsTree → List (List Char × List Char)
  | FsTree.file content =>
    if ign rel then []
    else if fail rel then []
    else [(rel, hash content)]
  | FsTree.dir f =>
    if ign rel then [] else walkForest ign fail hash rel f
/-- The walk of BuildFileManifest over the children of a directory, in
order. -/
def walkForest (ign : List Char → Bool) (fail : List Char → Bool)
    (hash : List Nat → List Char) (rel : List Char) :
    FsForest → List (List Char × List Char)
  | FsForest.nil => []
  | FsForest.cons name t rest =>
    walkTree ign fail hash (childRel rel name) t ++ walkForest ign fail hash rel rest
end

/-- BuildFileManifest (src/unnamed/part_000): walk the tree rooted at
the sync directory and collect relative path to content hash for every
non-ignored regular file, pruning ignored directories. The root itself
is skipped before any ignore check, so the walk starts at its children
with empty base path. The fail oracle models per-file I/O failures of
ComputeFileHash and the hash parameter models hex-encoded SHA-256. -/
def BuildFileManifest (ignorer : PathIgnorer) (fail : List Char → Bool)
    (hash : List Nat → List Char) (root : FsForest) : List (List Char × List Char) :=
  walkForest (fun rel => ignorer.IsIgnored rel) fail hash [] root

mutual
/-- All regular-file entries of a tree together with the relative
paths of the directories one must descend through to reach them
(statement vocabulary for the manifest characterization). -/
def treeFilesAnc (anc : List (List Char)) (rel : List Char) :
    FsTree → List (List Char × List (List Char) × List Nat)
  | FsTree.file content => [(rel, anc, content)]
  | FsTree.dir f => forestFilesAnc (anc ++ [rel]) rel f
/-- All regular-file entries of a forest with their directory chains. -/
def forestFilesAnc (anc : List (List Char)) (rel : List Char) :
    FsForest → List (List Char × List (List Char) × List Nat)
  | FsForest.nil => []
  | FsForest.cons name t rest =>
    treeFilesAnc anc (childRel rel name) t ++ forestFilesAnc anc rel rest
end

mutual
theorem treeFilesAnc_anc_mem (t : FsTree) :
    ∀ anc rel p al c, (p, al, c) ∈ treeFilesAnc anc rel t → ∀ a ∈ anc, a ∈ al := by
  match t with
  | FsTree.file content =>
    intro anc rel p al c hm a ha
    simp only [treeFilesAnc, List.mem_singleton, Prod.mk.injEq] at hm
    rw [hm.2.1]
    exact ha
  | FsTree.dir f =>
    intro anc rel p al c hm a ha
    exact forestFilesAnc_anc_mem f (anc ++ [rel]) rel p al c hm a
      (List.mem_append_left _ ha)
theorem forestFilesAnc_anc_mem (f : FsForest) :
    ∀ anc rel p al c, (p, al, c) ∈ forestFilesAnc anc rel f → ∀ a ∈ anc, a ∈ al := by
  match f with
  | FsForest.nil =>
    intro anc rel p al c hm
    simp [forestFilesAnc] at hm
  | FsForest.cons name t rest =>
    intro anc rel p al c hm a ha
    simp only [forestFilesAnc, List.mem_append] at hm
    cases hm with
    | inl h => exact treeFilesAnc_anc_mem t anc (childRel rel name) p al c h a ha
    | inr h => exact forestFilesAnc_anc_mem rest anc rel p al c h a ha
end

mutual
theorem walkTree_mem (t : FsTree) :
    ∀ (ign fail : List Char → Bool) (hash : List Nat → List Char)
      (anc : List (List Char)) (rel : List Char),
      (∀ a ∈ anc, ign a = false) →
      ∀ p v, ((p, v) ∈ walkTree ign fail hash rel t ↔
        ∃ al c, (p, al, c) ∈ treeFilesAnc anc rel t ∧
          (∀ a ∈ al, ign a = false) ∧ ign p = false ∧ fail p = false ∧ v = hash c) := by
  match t with
  | FsTree.file content =>
    intro ign fail hash anc rel hanc p v
    simp only [walkTree, treeFilesAnc]
    by_cases hig : ign rel = true
    · rw [if_pos hig]
      simp only [List.not_mem_nil, false_iff]
      rintro ⟨al, c, hm, _, hip, _, _⟩
      simp only [List.mem_singleton, Prod.mk.injEq] at hm
      rw [hm.1, hig] at hip
      simp at hip
    · have hig2 : ign rel = false := by simpa using hig
      rw [if_neg hig]
      by_cases hfa : fail rel = true
      · rw [if_pos hfa]
        simp only [List.not_mem_nil, false_iff]
        rintro ⟨al, c, hm, _, _, hfp, _⟩
        simp only [List.mem_singleton, Prod.mk.injEq] at hm
        rw [hm.1, hfa] at hfp
        simp at hfp
      · have hfa2 : fail rel = false := by simpa using hfa
        rw [if_neg hfa]
        simp only [List.mem_singleton, Prod.mk.injEq]
        constructor
        · rintro ⟨hp, hv⟩
          subst hp
          exact ⟨anc, content, by simp, hanc, hig2, hfa2, hv⟩
        · rintro ⟨al, c, hm, _, _, _, hv⟩
          exact ⟨hm.1, by rw [hv, hm.2.2]⟩
  | FsTree.dir f =>
    intro ign fail hash anc rel hanc p v
    simp only [walkTree, treeFilesAnc]
    by_cases hig : ign rel = true
    · rw [if_pos hig]
      simp only [List.not_mem_nil, false_iff]
      rintro ⟨al, c, hm, hal, _, _, _⟩
      have hrel : rel ∈ al :=
        forestFilesAnc_anc_mem f (anc ++ [rel]) rel p al c hm rel
          (List.mem_append_right _ (List.mem_singleton.mpr rfl))
      have h2 := hal rel hrel
      rw [hig] at h2
      simp at h2
    · have hig2 : ign rel = false := by simpa using hig
      rw [if_neg hig]
      apply walkForest_mem f ign fail hash (anc ++ [rel]) rel
      intro a ha
      rcases List.mem_append.mp ha with h | h
      · exact hanc a h
      · rw [List.mem_singleton.mp h]
        exact hig2
theorem walkForest_mem (f : FsForest) :
    ∀ (ign fail : List Char → Bool) (hash : List Nat → List Char)
      (anc : List (List Char)) (rel : List Char),
      (∀ a ∈ anc, ign a = false) →
      ∀ p v, ((p, v) ∈ walkForest ign fail hash rel f ↔
        ∃ al c, (p, al, c) ∈ forestFilesAnc anc rel f ∧
          (∀ a ∈ al, ign a = false) ∧ ign p = false ∧ fail p = false ∧ v = hash c) := by
  match f with
  | FsForest.nil =>
    intro ign fail hash anc rel hanc p v
    simp [walkForest, forestFilesAnc]
  | FsForest.cons name t rest =>
    intro ign fail hash anc rel hanc p v
    simp only [walkForest, forestFilesAnc, List.mem_append]
    rw [walkTree_mem t ign fail hash anc (childRel rel name) hanc p v,
      walkForest_mem rest ign fail hash anc rel hanc p v]
    constructor
    · rintro (⟨al, c, hm, h⟩ | ⟨al, c, hm, h⟩)
      · exact ⟨al, c, Or.inl hm, h⟩
      · exact ⟨al, c, Or.inr hm, h⟩
    · rintro ⟨al, c, hm | hm, h⟩
      · exact Or.inl ⟨al, c, hm, h⟩
      · exact Or.inr ⟨al, c, hm, h⟩
end

end Common

/-- C5: a pair is in the map returned by BuildFileManifest iff its key
is the relative path of a regular (non-directory) file entry of the
tree, none of the directories on the way to it is ignored, the path
itself is not ignored, hashing it did not fail, and the value is the
hash of the file bytes at build time; in particular the root and
directories never appear, and a per-file hash failure omits only that
file while the rest of the walk is unaffected. -/
theorem c5_build_manifest_characterization
    (ignorer : Common.PathIgnorer) (fail : List Char → Bool)
    (hash : List Nat → List Char) (root : Common.FsForest)
    (p v : List Char) :
    ((p, v) ∈ Common.BuildFileManifest ignorer fail hash root) ↔
      ∃ al c, (p, al, c) ∈ Common.forestFilesAnc [] [] root ∧
        (∀ a ∈ al, ignorer.IsIgnored a = false) ∧
        ignorer.IsIgnored p = false ∧ fail p = false ∧ v = hash c := by
  exact Common.walkForest_mem root (fun rel => ignorer.IsIgnored rel) fail hash
    [] [] (by intro a ha; simp at ha) p v

namespace Common

theorem foldl_append_filter {α β : Type} (f : α → Bool) (g : α → β) :
    ∀ (l : List α) (init : List β),
      l.foldl (fun acc x => if f x then acc ++ [g x] else acc) init
        = init ++ (l.filter f).map g := by
  intro l
  induction l with
  | nil => intro init; simp
  | cons x xs ih =>
    intro init
    by_cases hf : f x = true
    · simp [List.foldl_cons, hf, ih, List.filter_cons]
    · simp [List.foldl_cons, hf, ih, List.filter_cons]

theorem lookup_eq_some_iff_of_nodup {α β : Type} [BEq α] [LawfulBEq α]
    (l : List (α × β)) (hn : (l.map Prod.fst).Nodup) (k : α) (v : β) :
    l.lookup k = some v ↔ (k, v) ∈ l := by
  induction l with
  | nil => simp [List.lookup]
  | cons a l ih =>
    obtain ⟨a1, a2⟩ := a
    simp only [List.map_cons, List.nodup_cons] at hn
    by_cases hk : k = a1
    · subst hk
      simp only [List.lookup, beq_self_eq_true]
      constructor
      · intro h
        simp only [Option.some.injEq] at h
        rw [← h]
        exact List.mem_cons_self _ _
      · intro h
        rcases List.mem_cons.mp h with h | h
        · rw [(Prod.mk.injEq _ _ _ _).mp h.symm |>.2]
        · exact absurd (List.mem_map_of_mem Prod.fst h) hn.1
    · have hbeq : (k == a1) = false := by simpa using hk
      simp only [List.lookup, hbeq]
      rw [ih hn.2]
      constructor
      · exact fun h => List.mem_cons_of_mem _ h
      · intro h
        rcases List.mem_cons.mp h with h | h
        · exact absurd ((Prod.mk.injEq _ _ _ _).mp h).1 hk
        · exact h

theorem lookup_eq_none_iff {α β : Type} [BEq α] [LawfulBEq α]
    (l : List (α × β)) (k : α) :
    l.lookup k = none ↔ k ∉ l.map Prod.fst := by
  induction l with
  | nil => simp [List.lookup]
  | cons a l ih =>
    obtain ⟨a1, a2⟩ := a
    by_cases hk : k = a1
    · subst hk
      simp [List.lookup]
    · have hbeq : (k == a1) = false := by simpa using hk
      simp [List.lookup, hbeq, ih, hk]

end Common

namespace Client

/-- Result of the reconciliation performed by Client.handleManifest:
the paths requested from the server, the local paths removed with
os.RemoveAll under the sync root, and whether a file_request message
was sent. -/
structure SyncActions where
  toRequest : List (List Char)
  removed : List (List Char)
  requestSent : Bool

/-- The per-path test of the first reconciliation loop: request the
path when it is absent locally or the local hash differs from the
server hash. -/
def needsRequest (localManifest : List (List Char × List Char))
    (path serverHash : List Char) : Bool :=
  match localManifest.lookup path with
  | none => true
  | some localHash => localHash != serverHash

/-- Client.handleManifest (client code in src/README.md): compare the
server manifest against the locally built manifest, collect the paths
to request, remove every local path not present on the server, and
send one file_request exactly when the request list is non-empty. -/
def handleManifest (serverFiles localManifest : List (List Char × List Char)) :
    SyncActions :=
  let toRequest := serverFiles.foldl
    (fun acc pr => if needsRequest localManifest pr.1 pr.2 then acc ++ [pr.1] else acc) []
  let removed := localManifest.foldl
    (fun acc pr => if ! (serverFiles.any fun q => q.1 == pr.1) then acc ++ [pr.1] else acc) []
  { toRequest := toRequest, removed := removed,
    requestSent := decide (0 < toRequest.length) }

theorem needsRequest_iff (l : List (List Char × List Char)) (p sh : List Char) :
    needsRequest l p sh = true ↔ ¬ (l.lookup p = some sh) := by
  unfold needsRequest
  cases h : l.lookup p with
  | none => simp
  | some lh => simp [bne_iff_ne]

theorem any_key_eq_false_iff (s : List (List Char × List Char)) (p : List Char) :
    ((s.any fun q => q.1 == p) = false) ↔ s.lookup p = none := by
  rw [Common.lookup_eq_none_iff]
  constructor
  · intro h hm
    rcases List.mem_map.mp hm with ⟨q, hq, hq1⟩
    have h2 : (s.any fun q => q.1 == p) = true :=
      List.any_eq_true.mpr ⟨q, hq, by simp [hq1]⟩
    rw [h] at h2
    simp at h2
  · intro h
    cases ha : s.any fun q => q.1 == p with
    | false => rfl
    | true =>
      rcases List.any_eq_true.mp ha with ⟨q, hq, hq1⟩
      exact absurd (List.mem_map.mpr ⟨q, hq, by simpa using hq1⟩) h

end Client

/-- C1: on handling a manifest, the set of requested paths is exactly
the server paths that are locally absent or hash-different, the set of
locally removed paths is exactly the local paths absent from the server
manifest, and a file_request is sent iff the request list is
non-empty. -/
theorem c1_handle_manifest_reconciliation
    (serverFiles localManifest : List (List Char × List Char))
    (hs : (serverFiles.map Prod.fst).Nodup) :
    (∀ p, p ∈ (Client.handleManifest serverFiles localManifest).toRequest ↔
      ∃ sh, serverFiles.lookup p = some sh ∧ ¬ localManifest.lookup p = some sh) ∧
    (∀ p, p ∈ (Client.handleManifest serverFiles localManifest).removed ↔
      (¬ localManifest.lookup p = none ∧ serverFiles.lookup p = none)) ∧
    ((Client.handleManifest serverFiles localManifest).requestSent = true ↔
      ¬ (Client.handleManifest serverFiles localManifest).toRequest = []) := by
  refine ⟨?_, ?_, ?_⟩
  · intro p
    show p ∈ serverFiles.foldl _ [] ↔ _
    rw [Common.foldl_append_filter (fun pr => Client.needsRequest localManifest pr.1 pr.2)
      Prod.fst serverFiles []]
    simp only [List.nil_append, List.mem_map, List.mem_filter]
    constructor
    · rintro ⟨pr, ⟨hmem, hneed⟩, hfst⟩
      refine ⟨pr.2, ?_, ?_⟩
      · rw [← hfst]
        exact (Common.lookup_eq_some_iff_of_nodup serverFiles hs pr.1 pr.2).mpr
          (by simpa using hmem)
      · have := (Client.needsRequest_iff localManifest pr.1 pr.2).mp hneed
        rw [← hfst]
        exact this
    · rintro ⟨sh, hlk, hne⟩
      refine ⟨(p, sh), ⟨?_, ?_⟩, rfl⟩
      · exact (Common.lookup_eq_some_iff_of_nodup serverFiles hs p sh).mp hlk
      · exact (Client.needsRequest_iff localManifest p sh).mpr hne
  · intro p
    show p ∈ localManifest.foldl _ [] ↔ _
    rw [Common.foldl_append_filter
      (fun pr => ! (serverFiles.any fun q => q.1 == pr.1)) Prod.fst localManifest []]
    simp only [List.nil_append, List.mem_map, List.mem_filter, Bool.not_eq_true']
    constructor
    · rintro ⟨pr, ⟨hmem, hany⟩, hfst⟩
      constructor
      · rw [Common.lookup_eq_none_iff]
        intro hnm
        rw [← hfst] at hnm
        exact False.elim (hnm (List.mem_map_of_mem Prod.fst hmem))
      · rw [← hfst]
        exact (Client.any_key_eq_false_iff serverFiles pr.1).mp hany
    · rintro ⟨hlm, hsv⟩
      rw [Common.lookup_eq_none_iff] at hlm
      push_neg at hlm
      rcases List.mem_map.mp hlm with ⟨pr, hpr, hfst⟩
      refine ⟨pr, ⟨hpr, ?_⟩, hfst⟩
      rw [hfst]
      exact (Client.any_key_eq_false_iff serverFiles p).mpr hsv
  · show (decide (0 < (Client.handleManifest serverFiles localManifest).toRequest.length)
      = true) ↔ _
    rw [decide_eq_true_eq, List.length_pos]

/-- Witness for C1 at a concrete pair of manifests: with server entries
a and b and local entries b and c, path a is requested (absent locally)
and path c is removed (absent on the server). -/
theorem c1_handle_manifest_reconciliation_witness :
    (([("a".toList, "h1".toList), ("b".toList, "h2".toList)].map Prod.fst).Nodup) ∧
    ("a".toList ∈ (Client.handleManifest
        [("a".toList, "h1".toList), ("b".toList, "h2".toList)]
        [("b".toList, "h2".toList), ("c".toList, "h3".toList)]).toRequest ↔
      ∃ sh, [("a".toList, "h1".toList), ("b".toList, "h2".toList)].lookup "a".toList
          = some sh ∧
        ¬ [("b".toList, "h2".toList), ("c".toList, "h3".toList)].lookup "a".toList
          = some sh) :=
  ⟨by decide,
   (c1_handle_manifest_reconciliation
     [("a".toList, "h1".toList), ("b".toList, "h2".toList)]
     [("b".toList, "h2".toList), ("c".toList, "h3".toList)] (by decide)).1 "a".toList⟩

namespace Common

/-- Operation kinds of a file_operation message. -/
inductive OperationType where
  | write
  | remove
deriving DecidableEq, Repr

/-- The file_operation message body (internal/common/types.go). -/
structure FileOperationMessage where
  op : OperationType
  path : List Char
  content : List Nat
  isDir : Bool
deriving DecidableEq, Repr

/-- The file_content message body (internal/common/types.go). -/
structure FileContentMessage where
  path : List Char
  content : List Nat
deriving DecidableEq, Repr

/-- The file_request message body (internal/common/types.go). -/
structure FileRequestMessage where
  paths : List (List Char)
deriving DecidableEq, Repr

end Common

namespace Server

/-- A connection record in the server's client registry; sendOk models
whether WriteJSON on that connection succeeds. -/
structure ClientConn where
  id : List Char
  sendOk : Bool
deriving DecidableEq, Repr

/-- Server.broadcastOperation (internal/common/types.go): iterate over
the registry and attempt one send per connection whose id differs from
the recorded sender id; a failed send is logged and iteration
continues. The result lists, in registry order, each attempted receiver
id with the outcome of its send. -/
def broadcastOperation (clients : List ClientConn) (senderID : List Char) :
    List (List Char × Bool) :=
  clients.foldl
    (fun acc c => if c.id != senderID then acc ++ [(c.id, c.sendOk)] else acc) []

/-- An operation together with the id of the connection that sent it,
as enqueued on the server's operation channel. -/
structure FileOperationEnvelope where
  senderID : List Char
  op : Common.FileOperationMessage
deriving DecidableEq, Repr

/-- The capacity of the buffered operation channel created in
server.New. -/
def opChanCapacity : Nat := 100

/-- One step of the operation processor as observed on disk and on the
network. -/
inductive ProcessorEvent where
  | applyEvent : Common.FileOperationMessage → Bool → ProcessorEvent
  | broadcastEvent : Common.FileOperationMessage → ProcessorEvent
deriving DecidableEq, Repr

/-- Server.processOperationQueue (internal/common/types.go): the single
consumer drains the FIFO channel and, for each envelope in arrival
order, first applies the operation locally (applyOk gives the outcome
of the disk apply) and then broadcasts it, unconditionally. -/
def processOperationQueue (applyOk : Common.FileOperationMessage → Bool) :
    List FileOperationEnvelope → List ProcessorEvent
  | [] => []
  | e :: rest =>
    ProcessorEvent.applyEvent e.op (applyOk e.op) ::
      ProcessorEvent.broadcastEvent e.op :: processOperationQueue applyOk rest

/-- Server.handleFileOperation (internal/common/types.go): an unmarshal
failure returns without side effect, an ignored path is dropped, any
other operation is appended to the operation channel tagged with the
sender id. -/
def handleFileOperation (ignorer : Common.PathIgnorer)
    (queue : List FileOperationEnvelope) (senderID : List Char)
    (payload : Option Common.FileOperationMessage) : List FileOperationEnvelope :=
  match payload with
  | none => queue
  | some op =>
    if ignorer.IsIgnored op.path then queue else queue ++ [⟨senderID, op⟩]

/-- Server.handleFileRequest (internal/common/types.go): walk the
requested paths in order; skip ignored paths and unreadable files, send
one file_content per remaining path, and stop at the first send
failure. The result lists the file_content messages handed to the
connection (including the one whose send failed). -/
def handleFileRequest (ignorer : Common.PathIgnorer)
    (readFileF : List Char → Option (List Nat)) (sendOk : List Char → Bool) :
    List (List Char) → List Common.FileContentMessage
  | [] => []
  | p :: rest =>
    if ignorer.IsIgnored p then handleFileRequest ignorer readFileF sendOk rest
    else
      match readFileF p with
      | none => handleFileRequest ignorer readFileF sendOk rest
      | some content =>
        if sendOk p then
          ⟨p, content⟩ :: handleFileRequest ignorer readFileF sendOk rest
        else [⟨p, content⟩]

/-- The unmarshal step of Server.handleFileRequest: a payload that
fails to unmarshal produces no sends. -/
def handleFileRequestPayload (ignorer : Common.PathIgnorer)
    (readFileF : List Char → Option (List Nat)) (sendOk : List Char → Bool) :
    Option Common.FileRequestMessage → List Common.FileContentMessage
  | none => []
  | some req => handleFileRequest ignorer readFileF sendOk req.paths

/-- A well-formed envelope as the server read loop dispatches it: the
message type together with the result of the handler's attempt to
unmarshal the body (none models an unmarshal failure). -/
inductive Envelope where
  | fileRequest : Option Common.FileRequestMessage → Envelope
  | fileOperation : Option Common.FileOperationMessage → Envelope
  | unknown : List Char → Envelope
deriving DecidableEq, Repr

/-- One inbound websocket frame as ReadJSON sees it: either a frame
whose JSON fails to decode into the envelope, or a decoded envelope. -/
inductive Frame where
  | malformed : Frame
  | env : Envelope → Frame
deriving DecidableEq, Repr

/-- Outcome of the server read loop on a connection: the envelopes that
were dispatched, and the frames never read because the loop exited
early (after which the deferred close shuts the connection). -/
structure ReadLoopResult where
  dispatched : List Envelope
  unread : List Frame
deriving DecidableEq, Repr

/-- Server.handleClientMessages (internal/common/types.go): read one
envelope at a time; any ReadJSON error — a transport error or a
malformed envelope alike — breaks the loop, so the remaining frames are
never read and the connection is closed; a decoded envelope is
dispatched by type (unknown types are logged) and the loop continues. -/
def handleClientMessages : List Frame → ReadLoopResult
  | [] => { dispatched := [], unread := [] }
  | Frame.malformed :: rest => { dispatched := [], unread := rest }
  | Frame.env e :: rest =>
    let r := handleClientMessages rest
    { dispatched := e :: r.dispatched, unread := r.unread }

end Server

/-- C3: broadcastOperation attempts a send to exactly the registry
connections whose id differs from the sender id — never to the sender —
and a send failure at one receiver does not prevent the attempts at the
remaining receivers. -/
theorem c3_broadcast_excludes_sender (clients : List Server.ClientConn)
    (senderID : List Char) :
    ((Server.broadcastOperation clients senderID).map Prod.fst
      = (clients.filter fun c => c.id != senderID).map Server.ClientConn.id) ∧
    (∀ pr ∈ Server.broadcastOperation clients senderID, ¬ pr.1 = senderID) ∧
    (∀ c ∈ clients, ¬ c.id = senderID →
      (c.id, c.sendOk) ∈ Server.broadcastOperation clients senderID) ∧
    (∀ pr ∈ Server.broadcastOperation clients senderID,
      ∃ c ∈ clients, c.id = pr.1 ∧ c.sendOk = pr.2) := by
  have hb : Server.broadcastOperation clients senderID
      = (clients.filter fun c => c.id != senderID).map fun c => (c.id, c.sendOk) := by
    show clients.foldl _ [] = _
    rw [Common.foldl_append_filter (fun c => c.id != senderID)
      (fun c => (c.id, c.sendOk)) clients []]
    simp
  refine ⟨?_, ?_, ?_, ?_⟩
  · rw [hb, List.map_map]
    rfl
  · intro pr hpr
    rw [hb] at hpr
    rcases List.mem_map.mp hpr with ⟨c, hc, hceq⟩
    have := (List.mem_filter.mp hc).2
    rw [← hceq]
    simpa using this
  · intro c hc hne
    rw [hb]
    exact List.mem_map.mpr ⟨c, List.mem_filter.mpr ⟨hc, by simpa using hne⟩, rfl⟩
  · intro pr hpr
    rw [hb] at hpr
    rcases List.mem_map.mp hpr with ⟨c, hc, hceq⟩
    exact ⟨c, (List.mem_filter.mp hc).1, by rw [← hceq], by rw [← hceq]⟩

/-- Witness for C3 at a concrete registry: with the sender, a receiver
whose send fails and a receiver whose send succeeds, both non-sender
connections get a send attempt and the sender gets none. -/
theorem c3_broadcast_excludes_sender_witness :
    (({ id := "b".toList, sendOk := false } : Server.ClientConn) ∈
      [({ id := "x".toList, sendOk := true } : Server.ClientConn),
       { id := "b".toList, sendOk := false },
       { id := "c".toList, sendOk := true }]) ∧
    (¬ "b".toList = "x".toList) ∧
    (("b".toList, false) ∈ Server.broadcastOperation
      [({ id := "x".toList, sendOk := true } : Server.ClientConn),
       { id := "b".toList, sendOk := false },
       { id := "c".toList, sendOk := true }] "x".toList) :=
  ⟨by decide, by decide,
   (c3_broadcast_excludes_sender
     [{ id := "x".toList, sendOk := true },
      { id := "b".toList, sendOk := false },
      { id := "c".toList, sendOk := true }] "x".toList).2.2.1
     { id := "b".toList, sendOk := false } (by decide) (by decide)⟩

namespace Server

theorem processQueue_length (applyOk : Common.FileOperationMessage → Bool) :
    ∀ q : List FileOperationEnvelope,
      (processOperationQueue applyOk q).length = 2 * q.length := by
  intro q
  induction q with
  | nil => rfl
  | cons e rest ih =>
    simp only [processOperationQueue, List.length_cons, ih]
    omega

theorem processQueue_get (applyOk : Common.FileOperationMessage → Bool) :
    ∀ (q : List FileOperationEnvelope) (i : Nat) (h : i < q.length),
      (processOperationQueue applyOk q)[2 * i]? =
        some (ProcessorEvent.applyEvent (q.get ⟨i, h⟩).op
          (applyOk (q.get ⟨i, h⟩).op)) ∧
      (processOperationQueue applyOk q)[2 * i + 1]? =
        some (ProcessorEvent.broadcastEvent (q.get ⟨i, h⟩).op) := by
  intro q
  induction q with
  | nil => intro i h; simp at h
  | cons e rest ih =>
    intro i h
    cases i with
    | zero => simp [processOperationQueue]
    | succ n =>
      have h2 : n < rest.length := Nat.lt_of_succ_lt_succ h
      have heq1 : 2 * (n + 1) = 2 * n + 1 + 1 := by omega
      have heq2 : 2 * (n + 1) + 1 = 2 * n + 1 + 1 + 1 := by omega
      constructor
      · rw [heq1]
        simp only [processOperationQueue, List.getElem?_cons_succ]
        exact (ih n h2).1
      · rw [heq2]
        simp only [processOperationQueue, List.getElem?_cons_succ]
        exact (ih n h2).2

theorem processQueue_broadcast_mem (applyOk : Common.FileOperationMessage → Bool) :
    ∀ (q : List FileOperationEnvelope) (e : FileOperationEnvelope), e ∈ q →
      ProcessorEvent.broadcastEvent e.op ∈ processOperationQueue applyOk q := by
  intro q
  induction q with
  | nil => intro e he; simp at he
  | cons a rest ih =>
    intro e he
    rcases List.mem_cons.mp he with he | he
    · subst he
      exact List.mem_cons_of_mem _ (List.mem_cons_self _ _)
    · exact List.mem_cons_of_mem _ (List.mem_cons_of_mem _ (ih e he))

end Server

/-- C4: the operation channel is bounded with capacity 100 and its
single consumer produces a strictly serial event sequence: the i-th
dequeued envelope (arrival order) yields exactly the events at
positions 2i and 2i+1 — first the local apply, then the broadcast —
and the broadcast happens for every enqueued operation even when the
apply fails. -/
theorem c4_operation_processor_fifo
    (applyOk : Common.FileOperationMessage → Bool)
    (q : List Server.FileOperationEnvelope) :
    Server.opChanCapacity = 100 ∧
    (Server.processOperationQueue applyOk q).length = 2 * q.length ∧
    (∀ i (h : i < q.length),
      (Server.processOperationQueue applyOk q)[2 * i]? =
        some (Server.ProcessorEvent.applyEvent (q.get ⟨i, h⟩).op
          (applyOk (q.get ⟨i, h⟩).op)) ∧
      (Server.processOperationQueue applyOk q)[2 * i + 1]? =
        some (Server.ProcessorEvent.broadcastEvent (q.get ⟨i, h⟩).op)) ∧
    (∀ e ∈ q, Server.ProcessorEvent.broadcastEvent e.op ∈
      Server.processOperationQueue applyOk q) :=
  ⟨rfl, Server.processQueue_length applyOk q,
   fun i h => Server.processQueue_get applyOk q i h,
   fun e he => Server.processQueue_broadcast_mem applyOk q e he⟩

/-- Witness for C4 at a concrete queue of two envelopes whose applies
both fail: the second envelope is still applied at position 2 and
broadcast at position 3. -/
theorem c4_operation_processor_fifo_witness :
    (1 < ([⟨"a".toList, ⟨Common.OperationType.write, "p".toList, [1], false⟩⟩,
           ⟨"b".toList, ⟨Common.OperationType.remove, "q".toList, [], false⟩⟩] :
        List Server.FileOperationEnvelope).length) ∧
    ((Server.processOperationQueue (fun _ => false)
        [⟨"a".toList, ⟨Common.OperationType.write, "p".toList, [1], false⟩⟩,
         ⟨"b".toList, ⟨Common.OperationType.remove, "q".toList, [], false⟩⟩])[2 * 1]? =
      some (Server.ProcessorEvent.applyEvent
        (([⟨"a".toList, ⟨Common.OperationType.write, "p".toList, [1], false⟩⟩,
           ⟨"b".toList, ⟨Common.OperationType.remove, "q".toList, [], false⟩⟩] :
          List Server.FileOperationEnvelope).get ⟨1, by decide⟩).op false)) :=
  ⟨by decide,
   by
    have h := (c4_operation_processor_fifo (fun _ => false)
      [⟨"a".toList, ⟨Common.OperationType.write, "p".toList, [1], false⟩⟩,
       ⟨"b".toList, ⟨Common.OperationType.remove, "q".toList, [], false⟩⟩]).2.2.1 1
      (by decide)
    exact h.1⟩

/-- C7: a file_operation whose path the server ignorer matches is
dropped before enqueue — the operation channel is unchanged, so the
processor neither applies nor broadcasts it — and handleFileRequest
never produces a file_content message for an ignored path. -/
theorem c7_ignored_paths_dropped :
    (∀ (ignorer : Common.PathIgnorer) (queue : List Server.FileOperationEnvelope)
       (senderID : List Char) (op : Common.FileOperationMessage),
      ignorer.IsIgnored op.path = true →
        Server.handleFileOperation ignorer queue senderID (some op) = queue) ∧
    (∀ (ignorer : Common.PathIgnorer) (queue : List Server.FileOperationEnvelope)
       (senderID : List Char) (op : Common.FileOperationMessage)
       (applyOk : Common.FileOperationMessage → Bool),
      ignorer.IsIgnored op.path = true →
        Server.processOperationQueue applyOk
            (Server.handleFileOperation ignorer queue senderID (some op))
          = Server.processOperationQueue applyOk queue) ∧
    (∀ (ignorer : Common.PathIgnorer) (readFileF : List Char → Option (List Nat))
       (sendOk : List Char → Bool) (paths : List (List Char))
       (m : Common.FileContentMessage),
      m ∈ Server.handleFileRequest ignorer readFileF sendOk paths →
        ignorer.IsIgnored m.path = false) := by
  have hdrop : ∀ (ignorer : Common.PathIgnorer)
      (queue : List Server.FileOperationEnvelope)
      (senderID : List Char) (op : Common.FileOperationMessage),
      ignorer.IsIgnored op.path = true →
        Server.handleFileOperation ignorer queue senderID (some op) = queue := by
    intro ignorer queue senderID op hig
    simp [Server.handleFileOperation, hig]
  refine ⟨hdrop, ?_, ?_⟩
  · intro ignorer queue senderID op applyOk hig
    rw [hdrop ignorer queue senderID op hig]
  · intro ignorer readFileF sendOk paths
    induction paths with
    | nil =>
      intro m hm
      simp [Server.handleFileRequest] at hm
    | cons p rest ih =>
      intro m hm
      by_cases hig : ignorer.IsIgnored p = true
      · rw [Server.handleFileRequest, if_pos hig] at hm
        exact ih m hm
      · have hig2 : ignorer.IsIgnored p = false := by simpa using hig
        rw [Server.handleFileRequest, if_neg hig] at hm
        cases hr : readFileF p with
        | none =>
          simp only [hr] at hm
          exact ih m hm
        | some content =>
          simp only [hr] at hm
          by_cases hs : sendOk p = true
          · rw [if_pos hs] at hm
            rcases List.mem_cons.mp hm with hm | hm
            · rw [hm]
              exact hig2
            · exact ih m hm
          · rw [if_neg hs] at hm
            rcases List.mem_singleton.mp hm with hm
            rw [hm]
            exact hig2

/-- Witness for C7 at concrete inputs: with ignore pattern dot-git, an
operation on a file inside the dot-git directory leaves a one-element
queue unchanged. -/
theorem c7_ignored_paths_dropped_witness :
    ((Common.NewPathIgnorer ".git".toList).IsIgnored ".git/config".toList = true) ∧
    (Server.handleFileOperation (Common.NewPathIgnorer ".git".toList)
        [⟨"c1".toList, ⟨Common.OperationType.write, "a.txt".toList, [7], false⟩⟩]
        "c2".toList
        (some ⟨Common.OperationType.write, ".git/config".toList, [1, 2], false⟩)
      = [⟨"c1".toList, ⟨Common.OperationType.write, "a.txt".toList, [7], false⟩⟩]) :=
  ⟨by decide,
   c7_ignored_paths_dropped.1 (Common.NewPathIgnorer ".git".toList)
     [⟨"c1".toList, ⟨Common.OperationType.write, "a.txt".toList, [7], false⟩⟩]
     "c2".toList
     ⟨Common.OperationType.write, ".git/config".toList, [1, 2], false⟩ (by decide)⟩

/-- Counterexample to C8 as stated: a malformed envelope is a protocol
error on which the claim asserts the server skips the message and the
read loop continues to the next message; in the code the read loop
breaks on any ReadJSON error, so with a malformed frame followed by a
well-formed one, nothing is dispatched and the well-formed frame is
never read. -/
theorem c8_counterexample :
    Server.handleClientMessages
        [Server.Frame.malformed,
         Server.Frame.env (Server.Envelope.unknown "x".toList)] =
      { dispatched := [],
        unread := [Server.Frame.env (Server.Envelope.unknown "x".toList)] } ∧
    ¬ (Server.handleClientMessages
        [Server.Frame.malformed,
         Server.Frame.env (Server.Envelope.unknown "x".toList)]).unread = [] := by
  refine ⟨rfl, ?_⟩
  intro h
  simp [Server.handleClientMessages] at h

/-- C8 amended: an unmarshal failure of a message body and an unknown
message type are logged and skipped without closing the connection and
the read loop continues to the next message; a malformed envelope,
however, terminates the read loop (ReadJSON errors break the loop and
the connection is then closed), leaving the remaining frames unread. -/
theorem c8_protocol_errors_amended :
    (∀ (e : Server.Envelope) (rest : List Server.Frame),
      Server.handleClientMessages (Server.Frame.env e :: rest) =
        { dispatched := e :: (Server.handleClientMessages rest).dispatched,
          unread := (Server.handleClientMessages rest).unread }) ∧
    (∀ rest : List Server.Frame,
      Server.handleClientMessages (Server.Frame.malformed :: rest) =
        { dispatched := [], unread := rest }) ∧
    (∀ (ignorer : Common.PathIgnorer) (queue : List Server.FileOperationEnvelope)
       (senderID : List Char),
      Server.handleFileOperation ignorer queue senderID none = queue) ∧
    (∀ (ignorer : Common.PathIgnorer) (readFileF : List Char → Option (List Nat))
       (sendOk : List Char → Bool),
      Server.handleFileRequestPayload ignorer readFileF sendOk none = []) := by
  exact ⟨fun e rest => rfl, fun rest => rfl, fun ignorer queue senderID => rfl,
    fun ignorer readFileF sendOk => rfl⟩

namespace Common

/-- A node of a replica filesystem: a regular file with its bytes, or a
directory. -/
inductive FsNode where
  | file : List Nat → FsNode
  | dir : FsNode
deriving DecidableEq, Repr

/-- A replica filesystem as a partial map from slash-split path
segments (relative to the sync root) to nodes; the sync root itself is
an implicit directory. -/
def Fs : Type := List (List Char) → Option FsNode

/-- The segments of a relative path, as filepath.Join and filepath.Dir
operate on them. -/
def strSegs (path : List Char) : List (List Char) := splitSep '/' path

/-- Pointwise update of a filesystem map at one key. -/
def updateFs (fs : Fs) (k : List (List Char)) (v : Option FsNode) : Fs :=
  fun q => if q = k then v else fs q

/-- Models os.MkdirAll below the sync root: walk the path segments in
order, create each missing directory, and stop with failure upon
hitting an existing regular file (directories already created remain). -/
def mkdirAll (fs : Fs) (pre : List (List Char)) : List (List Char) → Fs × Bool
  | [] => (fs, true)
  | s :: rest =>
    match fs (pre ++ [s]) with
    | some FsNode.dir => mkdirAll fs (pre ++ [s]) rest
    | some (FsNode.file _) => (fs, false)
    | none => mkdirAll (updateFs fs (pre ++ [s]) (some FsNode.dir)) (pre ++ [s]) rest

/-- Models os.WriteFile: writing over an existing directory fails and
changes nothing; otherwise the file is created or overwritten with the
given bytes. -/
def writeFile (fs : Fs) (k : List (List Char)) (content : List Nat) : Fs :=
  if fs k = some FsNode.dir then fs
  else updateFs fs k (some (FsNode.file content))

/-- True when the first segment list is a leading part of the second. -/
def segsLe : List (List Char) → List (List Char) → Bool
  | [], _ => true
  | _ :: _, [] => false
  | a :: as, b :: bs => (a = b) && segsLe as bs

/-- Models os.RemoveAll: removes the path and everything below it. -/
def removeAll (fs : Fs) (k : List (List Char)) : Fs :=
  fun q => if segsLe k q then none else fs q

theorem updateFs_read (fs : Fs) (k : List (List Char)) (v : Option FsNode) :
    updateFs fs k v k = v := by
  simp [updateFs]

theorem updateFs_idem (fs : Fs) (k : List (List Char)) (v : Option FsNode) :
    updateFs (updateFs fs k v) k v = updateFs fs k v := by
  funext q
  simp only [updateFs]
  by_cases h : q = k <;> simp [h]

theorem writeFile_idem (fs : Fs) (k : List (List Char)) (content : List Nat) :
    writeFile (writeFile fs k content) k content = writeFile fs k content := by
  by_cases hd : fs k = some FsNode.dir
  · simp [writeFile, hd]
  · simp only [writeFile, if_neg hd, updateFs_read]
    rw [if_neg (by simp), updateFs_idem]

theorem mkdirAll_untouched :
    ∀ (l : List (List Char)) (fs : Fs) (pre q : List (List Char)),
      q.length ≤ pre.length → (mkdirAll fs pre l).1 q = fs q := by
  intro l
  induction l with
  | nil => intro fs pre q h; rfl
  | cons s rest ih =>
    intro fs pre q h
    have hle : q.length ≤ (pre ++ [s]).length := by
      simp only [List.length_append, List.length_cons, List.length_nil]
      omega
    simp only [mkdirAll]
    cases hn : fs (pre ++ [s]) with
    | none =>
      rw [ih (updateFs fs (pre ++ [s]) (some FsNode.dir)) (pre ++ [s]) q hle]
      have hne : ¬ q = pre ++ [s] := by
        intro he
        rw [he] at h
        simp only [List.length_append, List.length_cons, List.length_nil] at h
        omega
      simp [updateFs, hne]
    | some n =>
      cases n with
      | dir => exact ih fs (pre ++ [s]) q hle
      | file c => rfl

theorem mkdirAll_idem :
    ∀ (l : List (List Char)) (fs : Fs) (pre : List (List Char)),
      mkdirAll (mkdirAll fs pre l).1 pre l = mkdirAll fs pre l := by
  intro l
  induction l with
  | nil => intro fs pre; rfl
  | cons s rest ih =>
    intro fs pre
    cases hn : fs (pre ++ [s]) with
    | none =>
      have hupd : updateFs fs (pre ++ [s]) (some FsNode.dir) (pre ++ [s])
          = some FsNode.dir := updateFs_read fs (pre ++ [s]) (some FsNode.dir)
      have hpres := mkdirAll_untouched rest
        (updateFs fs (pre ++ [s]) (some FsNode.dir)) (pre ++ [s]) (pre ++ [s])
        (Nat.le_refl _)
      simp only [mkdirAll, hn, hpres, hupd]
      exact ih (updateFs fs (pre ++ [s]) (some FsNode.dir)) (pre ++ [s])
    | some n =>
      cases n with
      | dir =>
        have hpres := mkdirAll_untouched rest fs (pre ++ [s]) (pre ++ [s]) (Nat.le_refl _)
        simp only [mkdirAll, hn, hpres]
        exact ih fs (pre ++ [s])
      | file c => simp only [mkdirAll, hn]

theorem mkdirAll_update_comm :
    ∀ (l : List (List Char)) (fs : Fs) (pre k : List (List Char)) (v : Option FsNode),
      pre.length + l.length < k.length →
      mkdirAll (updateFs fs k v) pre l
        = (updateFs (mkdirAll fs pre l).1 k v, (mkdirAll fs pre l).2) := by
  intro l
  induction l with
  | nil => intro fs pre k v h; rfl
  | cons s rest ih =>
    intro fs pre k v h
    have hkne : ¬ (pre ++ [s]) = k := by
      intro he
      rw [← he] at h
      simp only [List.length_append, List.length_cons, List.length_nil] at h
      omega
    have hread : updateFs fs k v (pre ++ [s]) = fs (pre ++ [s]) := by
      simp [updateFs, hkne]
    have hlen : (pre ++ [s]).length + rest.length < k.length := by
      simp only [List.length_append, List.length_cons, List.length_nil]
      simp only [List.length_cons] at h
      omega
    cases hn : fs (pre ++ [s]) with
    | none =>
      have hswap : updateFs (updateFs fs k v) (pre ++ [s]) (some FsNode.dir)
          = updateFs (updateFs fs (pre ++ [s]) (some FsNode.dir)) k v := by
        funext q
        simp only [updateFs]
        by_cases h1 : q = pre ++ [s]
        · subst h1
          rw [if_pos rfl, if_neg (fun he => hkne he), if_pos rfl]
        · by_cases h2 : q = k
          · rw [if_neg h1, if_pos h2, if_pos h2]
          · rw [if_neg h1, if_neg h2, if_neg h2, if_neg h1]
      simp only [mkdirAll, hread, hn, hswap]
      exact ih (updateFs fs (pre ++ [s]) (some FsNode.dir)) (pre ++ [s]) k v hlen
    | some n =>
      cases n with
      | dir =>
        simp only [mkdirAll, hread, hn]
        exact ih fs (pre ++ [s]) k v hlen
      | file c => simp only [mkdirAll, hread, hn]

theorem strSegs_ne_nil (path : List Char) : strSegs path ≠ [] :=
  splitSep_ne_nil '/' path

end Common

namespace Server

/-- Server.applyChangeLocally (internal/common/types.go): a directory
write is MkdirAll on the full path; a file write ensures the parent
directories with MkdirAll and then writes the bytes, skipping the write
when MkdirAll failed; a remove is a recursive RemoveAll. Disk errors
are logged and leave the rest of the state unchanged. -/
def applyChangeLocally (fs : Common.Fs) (op : Common.FileOperationMessage) : Common.Fs :=
  let segs := Common.strSegs op.path
  match op.op with
  | Common.OperationType.write =>
    if op.isDir then (Common.mkdirAll fs [] segs).1
    else
      let r := Common.mkdirAll fs [] segs.dropLast
      if r.2 then Common.writeFile r.1 segs op.content else r.1
  | Common.OperationType.remove => Common.removeAll fs segs

end Server

namespace Client

/-- The apply part of Client.handleFileOperation (client code in
src/README.md): identical write and remove logic to the server apply,
against the client sync root. -/
def applyOperation (fs : Common.Fs) (op : Common.FileOperationMessage) : Common.Fs :=
  let segs := Common.strSegs op.path
  match op.op with
  | Common.OperationType.write =>
    if op.isDir then (Common.mkdirAll fs [] segs).1
    else
      let r := Common.mkdirAll fs [] segs.dropLast
      if r.2 then Common.writeFile r.1 segs op.content else r.1
  | Common.OperationType.remove => Common.removeAll fs segs

theorem applyOperation_eq_server : @applyOperation = @Server.applyChangeLocally := rfl

end Client

namespace Common

/-- The second run of the parent MkdirAll, started from the state the
first file-write apply produced, succeeds or fails exactly as the first
one did and leaves that state unchanged. -/
theorem mkdir_after_write (fs : Fs) (segs : List (List Char)) (content : List Nat)
    (hne : segs ≠ []) :
    mkdirAll
        (if (mkdirAll fs [] segs.dropLast).2 = true
          then writeFile (mkdirAll fs [] segs.dropLast).1 segs content
          else (mkdirAll fs [] segs.dropLast).1) [] segs.dropLast
      = ((if (mkdirAll fs [] segs.dropLast).2 = true
          then writeFile (mkdirAll fs [] segs.dropLast).1 segs content
          else (mkdirAll fs [] segs.dropLast).1),
         (mkdirAll fs [] segs.dropLast).2) := by
  have hlen : (([] : List (List Char))).length + segs.dropLast.length < segs.length := by
    simp only [List.length_nil, List.length_dropLast]
    have := List.length_pos.mpr hne
    omega
  by_cases hok : (mkdirAll fs [] segs.dropLast).2 = true
  · rw [if_pos hok]
    by_cases hd : (mkdirAll fs [] segs.dropLast).1 segs = some FsNode.dir
    · rw [writeFile, if_pos hd]
      rw [mkdirAll_idem segs.dropLast fs []]
    · rw [writeFile, if_neg hd]
      rw [mkdirAll_update_comm segs.dropLast (mkdirAll fs [] segs.dropLast).1 [] segs
        (some (FsNode.file content)) hlen]
      rw [mkdirAll_idem segs.dropLast fs []]
  · rw [if_neg hok]
    rw [mkdirAll_idem segs.dropLast fs []]

end Common

/-- C9: applying the same write operation (same path, same content,
same is_dir flag) twice in a row leaves the replica tree in the same
state as applying it once, both for the server apply and for the client
apply of a remote file_operation. -/
theorem c9_write_idempotent (fs : Common.Fs) (path : List Char)
    (content : List Nat) (isDir : Bool) :
    (Server.applyChangeLocally (Server.applyChangeLocally fs
        ⟨Common.OperationType.write, path, content, isDir⟩)
        ⟨Common.OperationType.write, path, content, isDir⟩
      = Server.applyChangeLocally fs ⟨Common.OperationType.write, path, content, isDir⟩) ∧
    (Client.applyOperation (Client.applyOperation fs
        ⟨Common.OperationType.write, path, content, isDir⟩)
        ⟨Common.OperationType.write, path, content, isDir⟩
      = Client.applyOperation fs ⟨Common.OperationType.write, path, content, isDir⟩) := by
  have hserver : Server.applyChangeLocally (Server.applyChangeLocally fs
      ⟨Common.OperationType.write, path, content, isDir⟩)
      ⟨Common.OperationType.write, path, content, isDir⟩
    = Server.applyChangeLocally fs ⟨Common.OperationType.write, path, content, isDir⟩ := by
    cases isDir with
    | true =>
      show (Common.mkdirAll (Common.mkdirAll fs [] (Common.strSegs path)).1 []
        (Common.strSegs path)).1 = (Common.mkdirAll fs [] (Common.strSegs path)).1
      rw [Common.mkdirAll_idem (Common.strSegs path) fs []]
    | false =>
      have hne := Common.strSegs_ne_nil path
      have hstep := Common.mkdir_after_write fs (Common.strSegs path) content hne
      show (if (Common.mkdirAll
            (if (Common.mkdirAll fs [] (Common.strSegs path).dropLast).2 = true
              then Common.writeFile (Common.mkdirAll fs [] (Common.strSegs path).dropLast).1
                (Common.strSegs path) content
              else (Common.mkdirAll fs [] (Common.strSegs path).dropLast).1)
            [] (Common.strSegs path).dropLast).2 = true
          then Common.writeFile (Common.mkdirAll
            (if (Common.mkdirAll fs [] (Common.strSegs path).dropLast).2 = true
              then Common.writeFile (Common.mkdirAll fs [] (Common.strSegs path).dropLast).1
                (Common.strSegs path) content
              else (Common.mkdirAll fs [] (Common.strSegs path).dropLast).1)
            [] (Common.strSegs path).dropLast).1 (Common.strSegs path) content
          else (Common.mkdirAll
            (if (Common.mkdirAll fs [] (Common.strSegs path).dropLast).2 = true
              then Common.writeFile (Common.mkdirAll fs [] (Common.strSegs path).dropLast).1
                (Common.strSegs path) content
              else (Common.mkdirAll fs [] (Common.strSegs path).dropLast).1)
            [] (Common.strSegs path).dropLast).1)
        = (if (Common.mkdirAll fs [] (Common.strSegs path).dropLast).2 = true
            then Common.writeFile (Common.mkdirAll fs [] (Common.strSegs path).dropLast).1
              (Common.strSegs path) content
            else (Common.mkdirAll fs [] (Common.strSegs path).dropLast).1)
      rw [hstep]
      dsimp only
      by_cases hok : (Common.mkdirAll fs [] (Common.strSegs path).dropLast).2 = true
      · rw [if_pos hok, if_pos hok]
        exact Common.writeFile_idem (Common.mkdirAll fs [] (Common.strSegs path).dropLast).1
          (Common.strSegs path) content
      · rw [if_neg hok]
  exact ⟨hserver, by rw [Client.applyOperation_eq_server]; exact hserver⟩

namespace Client

/-- Outbound client messages relevant to echo suppression: the
file_request sent by handleManifest and the file_operation sent by
handleFsEvent. -/
inductive OutboundMessage where
  | fileRequest : List (List Char) → OutboundMessage
  | fileOperation : Common.FileOperationMessage → OutboundMessage
deriving DecidableEq, Repr

/-- Client state shared between the listener and the watcher tasks:
the mutex-protected syncing flag and the messages written to the
connection so far. -/
structure ClientSyncState where
  isSyncing : Bool
  outbound : List OutboundMessage
deriving DecidableEq, Repr

/-- Client.setSyncing (client code in src/README.md): store the flag
under its mutex. -/
def setSyncing (st : ClientSyncState) (status : Bool) : ClientSyncState :=
  { st with isSyncing := status }

/-- An inbound server message as the listener switch dispatches it. -/
inductive ServerMessage where
  | manifest : List (List Char × List Char) → ServerMessage
  | fileContent : Common.FileContentMessage → ServerMessage
  | fileOperation : Common.FileOperationMessage → ServerMessage
  | unknown : List Char → ServerMessage
deriving DecidableEq, Repr

/-- The effect on the shared state of dispatching one inbound message
in Client.listenToServer: handleManifest sends one file_request
exactly when its request list is non-empty (localManifest is the
manifest built locally at that moment); handleFileContent and
handleFileOperation write to the filesystem only; no handler touches
the syncing flag and none sends a file_operation. -/
def dispatchMessage (localManifest : List (List Char × List Char))
    (st : ClientSyncState) : ServerMessage → ClientSyncState
  | ServerMessage.manifest files =>
    let acts := handleManifest files localManifest
    if acts.requestSent then
      { st with outbound := st.outbound ++ [OutboundMessage.fileRequest acts.toRequest] }
    else st
  | ServerMessage.fileContent _ => st
  | ServerMessage.fileOperation _ => st
  | ServerMessage.unknown _ => st

/-- One iteration of the read loop in Client.listenToServer for one
received message: set the syncing flag, dispatch by type, clear the
flag. -/
def processServerMessage (localManifest : List (List Char × List Char))
    (st : ClientSyncState) (m : ServerMessage) : ClientSyncState :=
  setSyncing (dispatchMessage localManifest (setSyncing st true) m) false

/-- Stat information for a path; the surrounding Option models a stat
failure (path vanished before stat). -/
structure StatInfo where
  isDir : Bool
deriving DecidableEq, Repr

/-- Which fsnotify operation bit the event matched, in the order the
code tests them. -/
inductive FsEventKind where
  | createEvent
  | writeEvent
  | removeEvent
  | renameEvent
  | otherEvent
deriving DecidableEq, Repr

/-- A filesystem event as Client.handleFsEvent inspects it: the event
kind, the path relative to the sync root (filepath.Rel assumed
successful), and the stat and read-file outcomes at handling time. -/
structure FsEvent where
  kind : FsEventKind
  relPath : List Char
  stat : Option StatInfo
  readResult : Option (List Nat)
deriving DecidableEq, Repr

/-- Client.handleFsEvent (client code in src/README.md): ignored paths
are dropped; remove and rename events emit a remove operation; create
and write events stat the path — on stat failure the event is dropped,
a created directory emits a directory write, a write on a directory is
dropped, and a regular file emits a write carrying the file bytes
(dropped if reading fails). -/
def handleFsEvent (ignorer : Common.PathIgnorer) (st : ClientSyncState)
    (ev : FsEvent) : ClientSyncState :=
  if ignorer.IsIgnored ev.relPath then st
  else
    match ev.kind with
    | FsEventKind.removeEvent =>
      { st with outbound := st.outbound ++
        [OutboundMessage.fileOperation
          ⟨Common.OperationType.remove, ev.relPath, [], false⟩] }
    | FsEventKind.renameEvent =>
      { st with outbound := st.outbound ++
        [OutboundMessage.fileOperation
          ⟨Common.OperationType.remove, ev.relPath, [], false⟩] }
    | FsEventKind.createEvent =>
      match ev.stat with
      | none => st
      | some info =>
        if info.isDir then
          { st with outbound := st.outbound ++
            [OutboundMessage.fileOperation
              ⟨Common.OperationType.write, ev.relPath, [], true⟩] }
        else
          match ev.readResult with
          | none => st
          | some content =>
            { st with outbound := st.outbound ++
              [OutboundMessage.fileOperation
                ⟨Common.OperationType.write, ev.relPath, content, false⟩] }
    | FsEventKind.writeEvent =>
      match ev.stat with
      | none => st
      | some info =>
        if info.isDir then st
        else
          match ev.readResult with
          | none => st
          | some content =>
            { st with outbound := st.outbound ++
              [OutboundMessage.fileOperation
                ⟨Common.OperationType.write, ev.relPath, content, false⟩] }
    | FsEventKind.otherEvent => st

/-- One iteration of the watcher select loop in Client.watchFilesystem
for a filesystem event: an event observed while the syncing flag is
set is dropped without handling; otherwise it is passed to
handleFsEvent. -/
def watcherStep (ignorer : Common.PathIgnorer) (st : ClientSyncState)
    (ev : FsEvent) : ClientSyncState :=
  if st.isSyncing then st else handleFsEvent ignorer st ev

end Client

/-- C2: the listener sets is_syncing to true before dispatching any
inbound server message and clears it to false once the message
completes; the dispatch itself never changes the flag and never emits a
file_operation (at most a file_request); and while is_syncing is true
every filesystem event observed by the watcher task is dropped
unchanged, so no outbound file_operation is emitted while the flag is
true. -/
theorem c2_is_syncing_echo_suppression :
    (∀ st : Client.ClientSyncState, (Client.setSyncing st true).isSyncing = true) ∧
    (∀ (localManifest : List (List Char × List Char)) (st : Client.ClientSyncState)
       (m : Client.ServerMessage),
      (Client.dispatchMessage localManifest st m).isSyncing = st.isSyncing) ∧
    (∀ (localManifest : List (List Char × List Char)) (st : Client.ClientSyncState)
       (m : Client.ServerMessage),
      (Client.processServerMessage localManifest st m).isSyncing = false) ∧
    (∀ (localManifest : List (List Char × List Char)) (st : Client.ClientSyncState)
       (m : Client.ServerMessage) (x : Client.OutboundMessage),
      x ∈ (Client.dispatchMessage localManifest st m).outbound →
        x ∈ st.outbound ∨ ∃ paths, x = Client.OutboundMessage.fileRequest paths) ∧
    (∀ (ignorer : Common.PathIgnorer) (st : Client.ClientSyncState)
       (ev : Client.FsEvent),
      st.isSyncing = true → Client.watcherStep ignorer st ev = st) := by
  refine ⟨fun st => rfl, ?_, fun lm st m => rfl, ?_, ?_⟩
  · intro lm st m
    cases m with
    | manifest files =>
      simp only [Client.dispatchMessage]
      split <;> rfl
    | fileContent c => rfl
    | fileOperation o => rfl
    | unknown t => rfl
  · intro lm st m x hx
    cases m with
    | manifest files =>
      simp only [Client.dispatchMessage] at hx
      by_cases hs : (Client.handleManifest files lm).requestSent = true
      · rw [if_pos hs] at hx
        simp only [List.mem_append] at hx
        rcases hx with hx | hx
        · exact Or.inl hx
        · exact Or.inr ⟨(Client.handleManifest files lm).toRequest,
            List.mem_singleton.mp hx⟩
      · rw [if_neg hs] at hx
        exact Or.inl hx
    | fileContent c => exact Or.inl hx
    | fileOperation o => exact Or.inl hx
    | unknown t => exact Or.inl hx
  · intro ignorer st ev h
    simp [Client.watcherStep, h]

/-- Witness for C2 at a concrete state with the syncing flag set: a
remove event on a non-ignored path — which would emit a file_operation
with the flag clear — is dropped and the state is unchanged. -/
theorem c2_is_syncing_echo_suppression_witness :
    (({ isSyncing := true, outbound := [] } : Client.ClientSyncState).isSyncing = true) ∧
    (Client.watcherStep (Common.NewPathIgnorer "".toList)
        { isSyncing := true, outbound := [] }
        { kind := Client.FsEventKind.removeEvent, relPath := "a.txt".toList,
          stat := none, readResult := none }
      = { isSyncing := true, outbound := [] }) :=
  ⟨by decide,
   c2_is_syncing_echo_suppression.2.2.2.2 (Common.NewPathIgnorer "".toList)
     { isSyncing := true, outbound := [] }
     { kind := Client.FsEventKind.removeEvent, relPath := "a.txt".toList,
       stat := none, readResult := none } (by decide)⟩

/-- C10: a path ignorer constructed from the empty pattern string has an
empty pattern list, and IsIgnored returns false for every path, so no
path is ever ignored. -/
theorem c10_empty_ignore_string :
    (Common.NewPathIgnorer "".toList).patterns = [] ∧
    ∀ path : List Char, (Common.NewPathIgnorer "".toList).IsIgnored path = false := by
  constructor
  · rfl
  · intro path
    rfl
